import Mathlib

/-!
Verification of the codeboss vanity-hash miner (src/main.rs) against its
specification.

The Rust source is shallowly embedded below.  Byte strings are `List Nat`
(each entry one byte value), machine integers are `Nat` with explicit
`% 2 ^ w` / clamping where the source relies on wrapping or saturating
arithmetic, and the SHA-1 digest is an abstract parameter
`digest : List Nat → List Nat` (every claim about mining is conditional on
the digest of concrete envelopes, never on SHA-1 internals).

Rust loops whose bound is data dependent are embedded with an explicit
fuel argument chosen provably larger than the number of iterations the
Rust loop can perform, so that every definition is structurally recursive
and kernel-reducible; each such definition records why its fuel is
generous.
-/

-- =============================================================================
-- Template parsing (src/main.rs, parse_template / parse_sequence / parse_choice
-- / flush_literal)
-- =============================================================================

/-- Template AST node, mirroring `enum Node { Literal(String), Choice(Vec<Vec<Node>>) }`.
Literal text is kept as the list of its bytes. -/
inductive Node where
  | lit : List Nat → Node
  | choice : List (List Node) → Node

/-- Result of a parse.  `unclosedBrace` models the Rust
`panic!("Unclosed brace in template")`; `outOfFuel` is the artefact of the
fuel embedding and is proved unreachable for the fuel used by
`parse_template`. -/
inductive PResult (α : Type) where
  | ok : α → PResult α
  | unclosedBrace : PResult α
  | outOfFuel : PResult α

/-- The four escapable bytes of the template syntax:
123 = left brace, 125 = right brace, 124 = pipe, 92 = backslash. -/
def isSpecial (b : Nat) : Bool := b == 123 || b == 125 || b == 124 || b == 92

/-- `escNext rest` holds when the byte after a backslash exists and is escapable,
mirroring `*pos + 1 < bytes.len() && matches!(next, b'{' | b'}' | b'|' | b'\\')`. -/
def escNext : List Nat → Bool
  | [] => false
  | nx :: _ => isSpecial nx

/-- `flush_literal`: push the accumulated literal as a node when nonempty. -/
def flush_literal (lit : List Nat) (nodes : List Node) : List Node :=
  if lit.isEmpty then nodes else nodes ++ [Node.lit lit]

/-- The bytes `literal.push(ch as char)` appends to the `String` accumulator:
the byte value `ch` becomes the code point U+0000..U+00FF, which the `String`
stores UTF-8 encoded — one byte when `ch < 0x80`, otherwise the two bytes
`0xC0 ||| (ch >> 6)` and `0x80 ||| (ch & 0x3F)`.  So a template byte at or
above 0x80 is re-encoded, not copied. -/
def utf8Byte (ch : Nat) : List Nat :=
  if ch < 128 then [ch] else [192 + ch / 64, 128 + ch % 64]

mutual

/-- `parse_sequence(bytes, pos, stop_at)`.  The Rust cursor `pos` into a fixed
byte array becomes the list of not-yet-consumed bytes; the in-progress literal
accumulator and the node accumulator of the Rust loop are explicit arguments.
Both literal pushes go through `utf8Byte`, because the Rust code pushes the
byte `as char` onto a `String` (bytes at or above 0x80 are re-encoded as two
UTF-8 bytes; the escaped specials are ASCII, so there `utf8Byte` is the
singleton).  Every recursive call consumes one unit of fuel;
`parse_progress` below shows `2 * bytes.length + 1` fuel rules out
`outOfFuel`. -/
def parse_sequence : Nat → List Nat → List Nat → List Nat → List Node →
    PResult (List Node × List Nat)
  | 0, _, _, _, _ => .outOfFuel
  | _ + 1, [], _stop, lit, nodes => .ok (flush_literal lit nodes, [])
  | fuel + 1, ch :: rest, stop, lit, nodes =>
    if ch == 92 && escNext rest then
      parse_sequence fuel rest.tail stop (lit ++ utf8Byte (rest.headD 0)) nodes
    else if stop.contains ch then .ok (flush_literal lit nodes, ch :: rest)
    else if ch == 123 then
      match parse_choice fuel rest [] with
      | .ok (node, rest') => parse_sequence fuel rest' stop [] (flush_literal lit nodes ++ [node])
      | .unclosedBrace => .unclosedBrace
      | .outOfFuel => .outOfFuel
    else parse_sequence fuel rest stop (lit ++ utf8Byte ch) nodes

/-- `parse_choice(bytes, pos)` with its alternative accumulator made explicit.
The byte after the alternative ends the loop when it is 125 = right brace,
otherwise (a pipe) the loop continues; end of input is the
`Unclosed brace` panic. -/
def parse_choice : Nat → List Nat → List (List Node) → PResult (Node × List Nat)
  | 0, _, _ => .outOfFuel
  | fuel + 1, bytes, alts =>
    match parse_sequence fuel bytes [124, 125] [] [] with
    | .ok (ns, rest) =>
      match rest with
      | [] => .unclosedBrace
      | ch :: rest' =>
        if ch == 125 then .ok (.choice (alts ++ [ns]), rest')
        else parse_choice fuel rest' (alts ++ [ns])
    | .unclosedBrace => .unclosedBrace
    | .outOfFuel => .outOfFuel

end

/-- `parse_template`: parse the whole byte string with an empty stop set.
`2 * t.length + 2` fuel is enough: `parse_fuel_sufficient` below. -/
def parse_template (t : List Nat) : PResult (List Node) :=
  match parse_sequence (2 * t.length + 2) t [] [] [] with
  | .ok (ns, _) => .ok ns
  | .unclosedBrace => .unclosedBrace
  | .outOfFuel => .outOfFuel

-- =============================================================================
-- Reference predicates on raw templates (used to state the parser claims)
-- =============================================================================

/-- Brace-balance check: scan the template left to right tracking the number of
open choice groups, with the same escape rule as the parser.  `braceOk t 0`
is the well-formedness condition of the spec: no choice group still open at
end of input. -/
def braceOk : List Nat → Nat → Bool
  | [], d => d == 0
  | ch :: rest, d =>
    if ch == 92 && escNext rest then
      match rest with
      | _ :: rest2 => braceOk rest2 d
      | [] => d == 0
    else if ch == 123 then braceOk rest (d + 1)
    else if ch == 125 && decide (0 < d) then braceOk rest (d - 1)
    else braceOk rest d

/-- A template with no unescaped left brace (hence no choice group). -/
def noChoiceByte : List Nat → Bool
  | [] => true
  | ch :: rest =>
    if ch == 92 && escNext rest then
      match rest with
      | _ :: rest2 => noChoiceByte rest2
      | [] => true
    else if ch == 123 then false
    else noChoiceByte rest

/-- The claim's notion of "literal text with each escape sequence resolved":
a backslash before one of the four special bytes becomes that single byte;
every other byte is kept verbatim.  (This is what the spec asserts the
expansion equals; the program differs on bytes at or above 0x80, see
`resolveEscapesUtf8`.) -/
def resolveEscapes : List Nat → List Nat
  | [] => []
  | ch :: rest =>
    if ch == 92 && escNext rest then
      match rest with
      | nx :: rest2 => nx :: resolveEscapes rest2
      | [] => [ch]
    else ch :: resolveEscapes rest

/-- The literal bytes the parser actually accumulates: escapes resolved, and
every pushed byte re-encoded through `utf8Byte` (identity on ASCII, two bytes
for 0x80..0xFF), matching `literal.push(.. as char)` on a `String`. -/
def resolveEscapesUtf8 : List Nat → List Nat
  | [] => []
  | ch :: rest =>
    if ch == 92 && escNext rest then
      match rest with
      | nx :: rest2 => utf8Byte nx ++ resolveEscapesUtf8 rest2
      | [] => utf8Byte ch
    else utf8Byte ch ++ resolveEscapesUtf8 rest

/-- All bytes of the template are ASCII (below 0x80). -/
def allAscii (t : List Nat) : Bool := t.all (fun b => b < 128)

-- =============================================================================
-- Progress and balance predicates used by the parser metatheory
-- =============================================================================

/-- Progress predicate for a sequence parse: no fuel exhaustion, and at most
`n` bytes left unconsumed on success. -/
def SeqP (r : PResult (List Node × List Nat)) (n : Nat) : Prop :=
  match r with
  | .ok (_, rest) => rest.length ≤ n
  | .unclosedBrace => True
  | .outOfFuel => False

/-- Progress predicate for a choice parse: no fuel exhaustion, and at least
one byte (the closing delimiter) consumed on success. -/
def ChoiceP (r : PResult (Node × List Nat)) (n : Nat) : Prop :=
  match r with
  | .ok (_, rest) => rest.length < n
  | .unclosedBrace => True
  | .outOfFuel => False

/-- Relation between a sequence parse and the brace-balance scan: a successful
parse consumes a balance-neutral prefix and stops only at end of input or at a
byte of the stop set; the `Unclosed brace` panic happens exactly when the
balance check fails. -/
def SeqB (r : PResult (List Node × List Nat)) (bytes stop : List Nat) (d : Nat) : Prop :=
  match r with
  | .ok (_, rest) =>
    braceOk bytes d = braceOk rest d ∧ (rest = [] ∨ ∃ c r2, rest = c :: r2 ∧ c ∈ stop)
  | .unclosedBrace => braceOk bytes d = false
  | .outOfFuel => True

/-- Same relation for a choice parse, which closes one open group. -/
def ChoiceB (r : PResult (Node × List Nat)) (bytes : List Nat) (d : Nat) : Prop :=
  match r with
  | .ok (_, rest') => braceOk bytes d = braceOk rest' (d - 1)
  | .unclosedBrace => braceOk bytes d = false
  | .outOfFuel => True

-- =============================================================================
-- Template expansion and slot compilation (expand_to_strings, count_variations,
-- find_slot_boundary, expand_nodes_to_slots, expand_template)
-- =============================================================================

mutual

/-- `expand_to_strings`: depth-first expansion of a run of nodes into every
concrete byte string it can produce, in source order (first alternative first). -/
def expand_to_strings : List Node → List (List Nat)
  | [] => [[]]
  | n :: rest => expand_node n (expand_to_strings rest)

/-- One step of `expand_to_strings`: the Rust `match first` over the head node,
given the expansions `rest` of the remaining nodes. -/
def expand_node : Node → List (List Nat) → List (List Nat)
  | .lit s, rest => rest.map (fun r => s ++ r)
  | .choice alts, rest => expand_alts alts rest

/-- The Rust `alts.iter().flat_map(..)` chain: for each alternative in order,
every expansion of the alternative concatenated with every tail expansion. -/
def expand_alts : List (List Node) → List (List Nat) → List (List Nat)
  | [], _ => []
  | a :: as, rest =>
    ((expand_to_strings a).map (fun pre => rest.map (fun suf => pre ++ suf))).flatten
      ++ expand_alts as rest

end

/-- `usize::MAX` on the 64-bit targets the source is written for. -/
def USIZE_MAX : Nat := 2 ^ 64 - 1

/-- Rust `usize::saturating_mul`. -/
def satMul (a b : Nat) : Nat := min (a * b) USIZE_MAX

/-- Rust release-mode (wrapping) `usize` addition, used by the `sum()` inside
`count_variations`. -/
def wrapAdd (a b : Nat) : Nat := (a + b) % 2 ^ 64

mutual

/-- The `fold` inside `count_variations` with its accumulator explicit:
`acc.saturating_mul(multiplier)` over the node run, left to right. -/
def count_fold : Nat → List Node → Nat
  | acc, [] => acc
  | acc, n :: ns => count_fold (satMul acc (node_mult n)) ns

/-- The per-node multiplier: 1 for a literal, the sum of the alternatives'
counts for a choice. -/
def node_mult : Node → Nat
  | .lit _ => 1
  | .choice alts => alts_sum alts

/-- `alts.iter().map(count_variations).sum()` (wrapping usize addition). -/
def alts_sum : List (List Node) → Nat
  | [] => 0
  | a :: as => wrapAdd (count_fold 1 a) (alts_sum as)

end

/-- `count_variations`: cross-product size of a run of nodes, with saturating
multiplication exactly as in the source. -/
def count_variations (nodes : List Node) : Nat := count_fold 1 nodes

def MAX_VARIATIONS_PER_SLOT : Nat := 8192

/-- Rust slice `nodes[s..e]` (`e` exclusive). -/
def sliceNodes (nodes : List Node) (s e : Nat) : List Node := (nodes.drop s).take (e - s)

/-- The `while` loop of `find_slot_boundary`, with fuel.  The loop increments
`e` while `e < nodes.len()` holds, so it runs at most `nodes.length` times and
fuel `nodes.length` makes the embedding exact: when fuel reaches 0 the guard
`e < nodes.length` is already false. -/
def findBoundaryLoop (nodes : List Node) (start : Nat) : Nat → Nat → Nat
  | 0, e => e
  | fuel + 1, e =>
    if e < nodes.length ∧
        count_variations (sliceNodes nodes start (e + 1)) ≤ MAX_VARIATIONS_PER_SLOT then
      findBoundaryLoop nodes start fuel (e + 1)
    else e

/-- `find_slot_boundary`: largest end (exclusive) of a run starting at `start`
whose cross-product stays within the per-slot cap, but at least `start + 1`. -/
def find_slot_boundary (nodes : List Node) (start : Nat) : Nat :=
  findBoundaryLoop nodes start nodes.length (start + 1)

/-- A slot: packed buffer of all variation bytes plus `(offset, length)` pairs,
mirroring `struct Slot { data: Box<[u8]>, offsets: Box<[(u32, u16)]> }`.
Offsets are truncated to `u32`, lengths to `u16`, as the `as` casts do. -/
structure Slot where
  data : List Nat
  offsets : List (Nat × Nat)

/-- `Slot::from_variations`. -/
def Slot.from_variations (variations : List (List Nat)) : Slot :=
  let r := variations.foldl
    (fun acc v => (acc.1 ++ v, acc.2 ++ [(acc.1.length % 2 ^ 32, v.length % 2 ^ 16)]))
    ([], [])
  ⟨r.1, r.2⟩

/-- `Slot::variation_count`. -/
def Slot.variation_count (s : Slot) : Nat := s.offsets.length

/-- `Slot::copy_variation_unchecked`: the bytes `data[off .. off + len]`
selected for variation `idx`. -/
def Slot.getVariation (s : Slot) (idx : Nat) : List Nat :=
  let p := s.offsets.getD idx (0, 0)
  (s.data.drop p.1).take p.2

/-- The `while i < nodes.len()` loop of `expand_nodes_to_slots`, abstracted to
the list of `(start, end)` runs it cuts the node list into.  Each iteration
moves `i` to `find_slot_boundary nodes i > i`, so the loop runs at most
`nodes.length` times and fuel `nodes.length + 1` is generous
(`slotRuns_fuel` below). -/
def slotRunsF (nodes : List Node) : Nat → Nat → List (Nat × Nat)
  | 0, _ => []
  | fuel + 1, i =>
    if i < nodes.length then
      (i, find_slot_boundary nodes i) :: slotRunsF nodes fuel (find_slot_boundary nodes i)
    else []

/-- The runs that `expand_nodes_to_slots` cuts the parsed nodes into. -/
def slotRuns (nodes : List Node) : List (Nat × Nat) := slotRunsF nodes (nodes.length + 1) 0

/-- `expand_nodes_to_slots`: one slot per run, skipping runs with no
variations (the `!variations.is_empty()` guard). -/
def expand_nodes_to_slots (nodes : List Node) : List Slot :=
  (slotRuns nodes).filterMap (fun r =>
    let variations := expand_to_strings (sliceNodes nodes r.1 r.2)
    if variations.isEmpty then none else some (Slot.from_variations variations))

/-- `expand_template`; the parse panic aborts the program, embedded as an
empty slot list (no claim depends on that arbitrary choice). -/
def expand_template (t : List Nat) : List Slot :=
  match parse_template t with
  | .ok nodes => expand_nodes_to_slots nodes
  | _ => []

-- =============================================================================
-- Slot enumeration (total_variations, entropy_bits, slot_counts,
-- generate_message, Odometer)
-- =============================================================================

/-- `total_variations`: product of the slots' variation counts as a `u128`
iterator product (release-mode wrapping). -/
def total_variations (slots : List Slot) : Nat :=
  (slots.map Slot.variation_count).foldl (fun a b => a * b % 2 ^ 128) 1

/-- `entropy_bits` is `(total as f64).log2()`; over the reals,
`log2 x < y ↔ x < 2 ^ y`, which is how the one comparison made against it is
stated below. -/
def entropy_bits_lt (slots : List Slot) (y : ℝ) : Prop :=
  Real.logb 2 (total_variations slots : ℝ) < y

/-- `validate_entropy` rejects (exits with an error) iff the entropy is below
37 bits. -/
def validate_entropy_rejects (slots : List Slot) : Prop :=
  entropy_bits_lt slots 37

/-- `slot_counts`. -/
def slot_counts (slots : List Slot) : List Nat := slots.map Slot.variation_count

/-- `generate_message`: concatenate the selected variation of each slot
(`slots.iter().zip(indices.iter())`). -/
def generate_message (slots : List Slot) (indices : List Nat) : List Nat :=
  ((slots.zip indices).map (fun p => p.1.getVariation p.2)).flatten

/-- `struct Odometer`. -/
structure Odometer where
  indices : List Nat
  counts : List Nat

/-- `Odometer::new`. -/
def Odometer.new (counts : List Nat) : Odometer :=
  ⟨List.replicate counts.length 0, counts⟩

/-- The digit list written by `set_position`: digit `i` is
`n % counts[i]`, carrying `n / counts[i]` to the next slot.  (The loop runs
over `indices`, which `new` makes the same length as `counts`, and overwrites
every digit.) -/
def setPosDigits (counts : List Nat) (n : Nat) : List Nat :=
  match counts with
  | [] => []
  | c :: cs => n % c :: setPosDigits cs (n / c)

/-- `Odometer::set_position`. -/
def Odometer.set_position (o : Odometer) (flat_index : Nat) : Odometer :=
  ⟨setPosDigits o.counts flat_index, o.counts⟩

/-- The digit list after one `advance`: increment the fastest digit; on
overflow reset it and carry. -/
def advanceDigits : List Nat → List Nat → List Nat
  | i :: is, c :: cs => if i + 1 < c then (i + 1) :: is else 0 :: advanceDigits is cs
  | is, _ => is

/-- `Odometer::advance`. -/
def Odometer.advance (o : Odometer) : Odometer :=
  ⟨advanceDigits o.indices o.counts, o.counts⟩

/-- `n` successive `advance` calls. -/
def Odometer.advanceN (o : Odometer) : Nat → Odometer
  | 0 => o
  | n + 1 => (o.advanceN n).advance

-- =============================================================================
-- Commit building and hashing (build_commit_object, hash_matches_target,
-- hash_to_hex)
-- =============================================================================

/-- Write `src` into `buf` starting at `pos` (Rust
`buffer[pos..pos + src.len()].copy_from_slice(src)`; callers guarantee the
buffer is long enough, which the theorems below take as a hypothesis). -/
def writeAt (buf : List Nat) (pos : Nat) (src : List Nat) : List Nat :=
  buf.take pos ++ src ++ buf.drop (pos + src.length)

/-- ASCII bytes of `"commit "`. -/
def commitTag : List Nat := [99, 111, 109, 109, 105, 116, 32]

/-- The loop of decimal formatting, with fuel; `n` only shrinks (division by
10), so fuel `n + 1` is generous. -/
def decDigitsLoop : Nat → Nat → List Nat → List Nat
  | 0, _, acc => acc
  | fuel + 1, n, acc =>
    if n < 10 then (48 + n) :: acc
    else decDigitsLoop fuel (n / 10) ((48 + n % 10) :: acc)

/-- ASCII decimal representation of `n` (Rust `format!("{}", n)`). -/
def natToDecimal (n : Nat) : List Nat := decDigitsLoop (n + 1) n []

/-- The exact byte string `build_commit_object` produces:
`"commit {len}\x00"` then header, message and the trailing newline. -/
def commit_object_bytes (header message : List Nat) : List Nat :=
  commitTag ++ natToDecimal (header.length + message.length + 1) ++ [0]
    ++ header ++ message ++ [10]

/-- `build_commit_object`: sequential writes into the caller's buffer,
returning the final buffer and the byte count `pos + 1`. -/
def build_commit_object (header message buffer : List Nat) : List Nat × Nat :=
  let content_len := header.length + message.length + 1
  let git_header := commitTag ++ natToDecimal content_len ++ [0]
  let b1 := writeAt buffer 0 git_header
  let b2 := writeAt b1 git_header.length header
  let b3 := writeAt b2 (git_header.length + header.length) message
  let pos := git_header.length + header.length + message.length
  (writeAt b3 pos [10], pos + 1)

/-- The leading 4 digest bytes as a big-endian 32-bit value
(`u32::from_be_bytes([hash[0], hash[1], hash[2], hash[3]])`). -/
def hashPrefix32 (hash : List Nat) : Nat :=
  ((hash.getD 0 0 * 256 + hash.getD 1 0) * 256 + hash.getD 2 0) * 256 + hash.getD 3 0

/-- `hash_matches_target`. -/
def hash_matches_target (hash : List Nat) (target : Nat) : Bool :=
  hashPrefix32 hash == target

/-- One byte to two lowercase hex digit bytes (`format!("{:02x}", b)`). -/
def hexDigit (n : Nat) : Nat := if n < 10 then 48 + n else 87 + n

/-- `hash_to_hex`, as ASCII bytes. -/
def hash_to_hex (hash : List Nat) : List Nat :=
  (hash.map (fun b => [hexDigit (b / 16), hexDigit (b % 16)])).flatten

-- =============================================================================
-- Mining (mine_vanity_hash / mine_thread), single-worker execution
-- =============================================================================

def CHUNK_SIZE : Nat := 1000000

/-- `struct MiningResult`, minus the wall-clock `duration_secs` field (real
time is outside the embedding).  `message` and `hash` are byte strings. -/
structure MiningResult where
  message : List Nat
  hash : List Nat
  attempts : Nat
deriving DecidableEq

/-- The `for _ in 0..CHUNK_SIZE` body of `mine_thread`: generate, hash,
compare, advance.  `check` is the composite
`hash_matches_target(hash_commit(build_commit_object(..)), target)` of one
candidate, as a function of the odometer digits.  Returns the digits of the
first matching candidate, if any. -/
def scan_chunk (check : List Nat → Bool) (counts : List Nat) :
    Nat → List Nat → Option (List Nat)
  | 0, _ => none
  | n + 1, digits =>
    if check digits then some digits else scan_chunk check counts n (advanceDigits digits counts)

/-- The outer `loop` of `mine_thread` for a worker that never observes the
shared `found` flag set by another worker (exact for a single-worker run):
seek to `offset`, scan one chunk, then either return the match (leaving the
shared `attempts` counter untouched), or add `CHUNK_SIZE` to the counter,
advance `offset` by `num_threads * CHUNK_SIZE` and stop once the offset
reaches `total_variations`.  Each iteration moves `offset` up by at least 1,
so fuel `total + 1` is generous (the run starts at offset below
`num_threads * CHUNK_SIZE`). -/
def mine_thread_loop (check : List Nat → Bool) (counts : List Nat)
    (num_threads total : Nat) : Nat → Nat → Nat → Option (List Nat) × Nat
  | 0, _, attempts => (none, attempts)
  | fuel + 1, offset, attempts =>
    match scan_chunk check counts CHUNK_SIZE (setPosDigits counts offset) with
    | some digits => (some digits, attempts)
    | none =>
      let attempts2 := attempts + CHUNK_SIZE
      let offset2 := offset + num_threads * CHUNK_SIZE
      if total ≤ offset2 then (none, attempts2)
      else mine_thread_loop check counts num_threads total fuel offset2 attempts2

/-- The candidate check one mining iteration performs, with the SHA-1 digest
abstract: build the message from the odometer digits, wrap it in the commit
envelope, digest, and compare the leading 32 bits with the target.
(`build_commit_object` writes exactly `commit_object_bytes` into its buffer:
`build_commit_object_spec` below.) -/
def mine_check (digest : List Nat → List Nat) (slots : List Slot)
    (commit_header : List Nat) (target : Nat) (digits : List Nat) : Bool :=
  hash_matches_target (digest (commit_object_bytes commit_header (generate_message slots digits)))
    target

/-- `mine_vanity_hash` for a single worker (`rayon` pool of size 1: one call
of `mine_thread` with `thread_id = 0`).  Returns the `Option<MiningResult>`
together with the final value of the shared `attempts` counter (on success the
result's `attempts` field is that same loaded value). -/
def mine_vanity_hash_single (digest : List Nat → List Nat) (slots : List Slot)
    (commit_header : List Nat) (target : Nat) : Option MiningResult × Nat :=
  let counts := slot_counts slots
  let total := total_variations slots
  let r := mine_thread_loop (mine_check digest slots commit_header target) counts 1 total
    (total + 1) 0 0
  match r with
  | (some digits, attempts) =>
    let message := generate_message slots digits
    (some ⟨message, hash_to_hex (digest (commit_object_bytes commit_header message)), attempts⟩,
      attempts)
  | (none, attempts) => (none, attempts)

-- =============================================================================
-- Worker chunk schedule (the offset arithmetic of mine_thread, any worker)
-- =============================================================================

/-- The sequence of chunk-start offsets worker `t` scans in a full (no-match)
run: `offset` starts at `t * C`, a chunk is always scanned, and the loop
continues with `offset + T * C` while that is below `total`.  Fuel as in
`mine_thread_loop`. -/
def workerOffsets (T C total : Nat) : Nat → Nat → List Nat
  | 0, _ => []
  | fuel + 1, offset =>
    offset :: (if total ≤ offset + T * C then [] else workerOffsets T C total fuel (offset + T * C))

/-- All virtual scan indices of worker `t`: each chunk at offset `o` scans the
index range `[o, o + C)` (the odometer is seeked to `o` and advanced `C - 1`
times). -/
def workerVirtualIndices (T C total fuel t : Nat) : List Nat :=
  ((workerOffsets T C total fuel (t * C)).map (fun o => (List.range C).map (fun i => o + i))).flatten

/-- The flat candidate-space index each virtual index lands on: the odometer
wraps modulo the candidate-space size (`setPosDigits_mod` below). -/
def workerFlatIndices (T C total fuel t : Nat) : List Nat :=
  (workerVirtualIndices T C total fuel t).map (fun v => v % total)

/-- The digit tuples a chunk visits: seek to `start`, then advance repeatedly. -/
def chunkDigits (counts : List Nat) : Nat → List Nat → List (List Nat)
  | 0, _ => []
  | n + 1, digits => digits :: chunkDigits counts n (advanceDigits digits counts)

/-- All digit tuples worker `t` visits over its chunks. -/
def workerDigitsVisited (counts : List Nat) (T C total fuel t : Nat) : List (List Nat) :=
  ((workerOffsets T C total fuel (t * C)).map
    (fun o => chunkDigits counts C (setPosDigits counts o))).flatten

-- sanity: "{a|b}" parses to one choice of two literals; "{a" is the panic
example : parse_template [123, 97, 124, 98, 125] =
    .ok [Node.choice [[Node.lit [97]], [Node.lit [98]]]] := rfl

example : parse_template [123, 97] = .unclosedBrace := rfl

example : braceOk [123, 97] 0 = false := rfl

-- =============================================================================
-- Parser metatheory
-- =============================================================================


theorem SeqP_mono {r : PResult (List Node × List Nat)} {n m : Nat}
    (h : SeqP r n) (hnm : n ≤ m) : SeqP r m := by
  cases r with
  | ok p => obtain ⟨ns, rest⟩ := p; simp only [SeqP] at h ⊢; omega
  | unclosedBrace => trivial
  | outOfFuel => exact h

theorem ChoiceP_mono {r : PResult (Node × List Nat)} {n m : Nat}
    (h : ChoiceP r n) (hnm : n ≤ m) : ChoiceP r m := by
  cases r with
  | ok p => obtain ⟨node, rest⟩ := p; simp only [ChoiceP] at h ⊢; omega
  | unclosedBrace => trivial
  | outOfFuel => exact h

/-- Fuel sufficiency and cursor progress: with fuel at least
`2 * bytes.length + 1` a sequence parse cannot run out of fuel and leaves at
most `bytes.length` bytes unconsumed; a choice parse needs one more unit of
fuel and always consumes at least the closing delimiter. -/
theorem parse_progress : ∀ fuel : Nat,
    (∀ bytes stop lit nodes, 2 * bytes.length + 1 ≤ fuel →
      SeqP (parse_sequence fuel bytes stop lit nodes) bytes.length) ∧
    (∀ bytes alts, 2 * bytes.length + 2 ≤ fuel →
      ChoiceP (parse_choice fuel bytes alts) bytes.length) := by
  intro fuel
  induction fuel with
  | zero =>
    exact ⟨fun bytes _ _ _ h => absurd h (by omega), fun bytes _ h => absurd h (by omega)⟩
  | succ f ih =>
    obtain ⟨ihS, ihC⟩ := ih
    constructor
    · intro bytes stop lit nodes h
      cases bytes with
      | nil => simp [parse_sequence, SeqP]
      | cons ch rest =>
        simp only [List.length_cons] at h
        have htail : rest.tail.length ≤ rest.length := by
          rw [List.length_tail]; omega
        simp only [parse_sequence, List.length_cons]
        split
        · exact SeqP_mono (ihS rest.tail stop (lit ++ utf8Byte (rest.headD 0)) nodes (by omega))
            (by omega)
        · split
          · simp [SeqP]
          · split
            · split
              · rename_i node rest' hr
                have hc := ihC rest [] (by omega)
                rw [hr] at hc
                simp only [ChoiceP] at hc
                exact SeqP_mono
                  (ihS rest' stop [] (flush_literal lit nodes ++ [node]) (by omega)) (by omega)
              · simp [SeqP]
              · rename_i hr
                have hc := ihC rest [] (by omega)
                rw [hr] at hc
                exact absurd hc id
            · exact SeqP_mono (ihS rest stop (lit ++ utf8Byte ch) nodes (by omega)) (by omega)
    · intro bytes alts h
      simp only [parse_choice]
      split
      · rename_i ns rest hr
        have hs := ihS bytes [124, 125] [] [] (by omega)
        rw [hr] at hs
        simp only [SeqP] at hs
        cases rest with
        | nil => trivial
        | cons c r =>
          simp only [List.length_cons] at hs
          cases hc : (c == 125) with
          | true =>
            simp only [hc, if_true]
            simp only [ChoiceP]
            omega
          | false =>
            simp only [hc, Bool.false_eq_true, if_false]
            exact ChoiceP_mono (ihC r (alts ++ [ns]) (by omega)) (by omega)
      · trivial
      · rename_i hr
        have hs := ihS bytes [124, 125] [] [] (by omega)
        rw [hr] at hs
        exact absurd hs id

theorem SeqB_congr {r : PResult (List Node × List Nat)} {bytes bytes2 stop : List Nat} {d : Nat}
    (he : braceOk bytes2 d = braceOk bytes d) (h : SeqB r bytes stop d) : SeqB r bytes2 stop d := by
  cases r with
  | ok p =>
    obtain ⟨ns, rest⟩ := p
    exact ⟨he.trans h.1, h.2⟩
  | unclosedBrace => exact he.trans h
  | outOfFuel => trivial

theorem ChoiceB_congr {r : PResult (Node × List Nat)} {bytes bytes2 : List Nat} {d : Nat}
    (he : braceOk bytes2 d = braceOk bytes d) (h : ChoiceB r bytes d) : ChoiceB r bytes2 d := by
  cases r with
  | ok p =>
    obtain ⟨node, rest'⟩ := p
    exact he.trans h
  | unclosedBrace => exact he.trans h
  | outOfFuel => trivial

theorem braceOk_esc {ch nx : Nat} {rest2 : List Nat} (d : Nat)
    (hA : (ch == 92 && escNext (nx :: rest2)) = true) :
    braceOk (ch :: nx :: rest2) d = braceOk rest2 d := by
  simp only [braceOk, hA, if_true]

theorem braceOk_open (rest : List Nat) (d : Nat) :
    braceOk (123 :: rest) d = braceOk rest (d + 1) := by
  cases rest <;> simp [braceOk]

theorem braceOk_close (rest : List Nat) {d : Nat} (hd : 1 ≤ d) :
    braceOk (125 :: rest) d = braceOk rest (d - 1) := by
  have h0 : 0 < d := hd
  cases rest <;> simp [braceOk, h0]

theorem braceOk_other {ch : Nat} (rest : List Nat) (d : Nat)
    (h1 : (ch == 92 && escNext rest) = false) (h2 : (ch == 123) = false)
    (h3 : (ch == 125 && decide (0 < d)) = false) :
    braceOk (ch :: rest) d = braceOk rest d := by
  cases rest <;>
    simp only [braceOk, h1, h2, h3, Bool.false_eq_true, if_false]

/-- The parser agrees with the brace-balance scan: a parse panics with
`Unclosed brace` exactly when the scan fails, and otherwise consumes
balance-neutral input. -/
theorem parse_braceOk : ∀ fuel : Nat,
    (∀ bytes stop lit nodes d,
      (stop = [] ∧ d = 0) ∨ (stop = [124, 125] ∧ 1 ≤ d) →
      SeqB (parse_sequence fuel bytes stop lit nodes) bytes stop d) ∧
    (∀ bytes alts d, 1 ≤ d → ChoiceB (parse_choice fuel bytes alts) bytes d) := by
  intro fuel
  induction fuel with
  | zero => exact ⟨fun _ _ _ _ _ _ => trivial, fun _ _ _ _ => trivial⟩
  | succ f ih =>
    obtain ⟨ihS, ihC⟩ := ih
    constructor
    · intro bytes stop lit nodes d hsd
      cases bytes with
      | nil => exact ⟨rfl, Or.inl rfl⟩
      | cons ch rest =>
        simp only [parse_sequence]
        cases hA : (ch == 92 && escNext rest) with
        | true =>
          cases rest with
          | nil => simp [escNext] at hA
          | cons nx rest2 =>
            simp only [hA, if_true, List.tail_cons, List.headD_cons]
            exact SeqB_congr (braceOk_esc d hA) (ihS rest2 stop (lit ++ utf8Byte nx) nodes d hsd)
        | false =>
          simp only [hA, Bool.false_eq_true, if_false]
          cases hB : stop.contains ch with
          | true =>
            simp only [hB, if_true]
            exact ⟨rfl, Or.inr ⟨ch, rest, rfl, by simpa using hB⟩⟩
          | false =>
            simp only [hB, Bool.false_eq_true, if_false]
            cases hC : (ch == 123) with
            | true =>
              have hch : ch = 123 := by simpa using hC
              subst hch
              simp only [hC, if_true]
              split
              · rename_i node rest' heq
                have hcb := ihC rest [] (d + 1) (by omega)
                rw [heq] at hcb
                simp only [ChoiceB, Nat.add_sub_cancel] at hcb
                refine SeqB_congr ?_ (ihS rest' stop [] (flush_literal lit nodes ++ [node]) d hsd)
                rw [braceOk_open rest d, hcb]
              · rename_i heq
                have hcb := ihC rest [] (d + 1) (by omega)
                rw [heq] at hcb
                simp only [ChoiceB] at hcb
                show braceOk (123 :: rest) d = false
                rw [braceOk_open rest d]
                exact hcb
              · trivial
            | false =>
              simp only [hC, Bool.false_eq_true, if_false]
              refine SeqB_congr ?_ (ihS rest stop (lit ++ utf8Byte ch) nodes d hsd)
              refine braceOk_other rest d hA hC ?_
              rcases hsd with ⟨hstop, hd0⟩ | ⟨hstop, hd1⟩
              · subst hd0; simp
              · subst hstop
                have h125 : ch ≠ 125 := by
                  simp at hB
                  omega
                simp [beq_eq_false_iff_ne.mpr h125]
    · intro bytes alts d hd
      simp only [parse_choice]
      split
      · rename_i ns rest heq
        have hs := ihS bytes [124, 125] [] [] d (Or.inr ⟨rfl, hd⟩)
        rw [heq] at hs
        simp only [SeqB] at hs
        obtain ⟨hbo, hrest⟩ := hs
        cases rest with
        | nil =>
          show braceOk bytes d = false
          rw [hbo]
          simp [braceOk]
          omega
        | cons c r =>
          have hcmem : c = 124 ∨ c = 125 := by
            rcases hrest with h | ⟨c', r', hcr, hmem⟩
            · exact absurd h (List.cons_ne_nil c r)
            · rw [List.cons.injEq] at hcr
              obtain ⟨h1, _⟩ := hcr
              subst h1
              simpa using hmem
          cases hc : (c == 125) with
          | true =>
            have h125 : c = 125 := by simpa using hc
            subst h125
            simp only [hc, if_true]
            show braceOk bytes d = braceOk r (d - 1)
            rw [hbo]
            exact braceOk_close r hd
          | false =>
            simp only [hc, Bool.false_eq_true, if_false]
            refine ChoiceB_congr ?_ (ihC r (alts ++ [ns]) d hd)
            rw [hbo]
            have hc124 : c = 124 := by
              have : c ≠ 125 := by simpa using hc
              omega
            subst hc124
            exact braceOk_other r d (by simp) (by simp) (by simp)
      · show braceOk bytes d = false
        rename_i heq
        have hs := ihS bytes [124, 125] [] [] d (Or.inr ⟨rfl, hd⟩)
        rw [heq] at hs
        exact hs
      · trivial

theorem noChoiceByte_esc {ch nx : Nat} {rest2 : List Nat}
    (hA : (ch == 92 && escNext (nx :: rest2)) = true) :
    noChoiceByte (ch :: nx :: rest2) = noChoiceByte rest2 := by
  simp only [noChoiceByte, hA, if_true]

theorem resolveEscapes_esc {ch nx : Nat} {rest2 : List Nat}
    (hA : (ch == 92 && escNext (nx :: rest2)) = true) :
    resolveEscapes (ch :: nx :: rest2) = nx :: resolveEscapes rest2 := by
  simp only [resolveEscapes, hA, if_true]

theorem noChoiceByte_open (rest : List Nat) : noChoiceByte (123 :: rest) = false := by
  cases rest <;> simp [noChoiceByte, escNext]

theorem noChoiceByte_other {ch : Nat} (rest : List Nat)
    (h1 : (ch == 92 && escNext rest) = false) (h2 : (ch == 123) = false) :
    noChoiceByte (ch :: rest) = noChoiceByte rest := by
  cases rest <;> simp only [noChoiceByte, h1, h2, Bool.false_eq_true, if_false]

theorem resolveEscapes_other {ch : Nat} (rest : List Nat)
    (h1 : (ch == 92 && escNext rest) = false) :
    resolveEscapes (ch :: rest) = ch :: resolveEscapes rest := by
  cases rest <;> simp only [resolveEscapes, h1, Bool.false_eq_true, if_false]

theorem resolveEscapesUtf8_esc {ch nx : Nat} {rest2 : List Nat}
    (hA : (ch == 92 && escNext (nx :: rest2)) = true) :
    resolveEscapesUtf8 (ch :: nx :: rest2) = utf8Byte nx ++ resolveEscapesUtf8 rest2 := by
  simp only [resolveEscapesUtf8, hA, if_true]

theorem resolveEscapesUtf8_other {ch : Nat} (rest : List Nat)
    (h1 : (ch == 92 && escNext rest) = false) :
    resolveEscapesUtf8 (ch :: rest) = utf8Byte ch ++ resolveEscapesUtf8 rest := by
  cases rest <;> simp only [resolveEscapesUtf8, h1, Bool.false_eq_true, if_false]

/-- On an all-ASCII template the `as char` re-encoding is the identity, so
the accumulated literal is exactly the escape-resolved template text. -/
theorem resolveEscapesUtf8_ascii (t : List Nat) (hascii : allAscii t = true) :
    resolveEscapesUtf8 t = resolveEscapes t := by
  have main : ∀ n t, t.length ≤ n → allAscii t = true →
      resolveEscapesUtf8 t = resolveEscapes t := by
    intro n
    induction n with
    | zero =>
      intro t ht _
      have : t = [] := List.eq_nil_of_length_eq_zero (by omega)
      subst this
      rfl
    | succ m ih =>
      intro t ht ha
      cases t with
      | nil => rfl
      | cons ch rest =>
        simp only [allAscii, List.all_cons, Bool.and_eq_true, decide_eq_true_eq] at ha
        obtain ⟨hch, harest⟩ := ha
        cases hA : (ch == 92 && escNext rest) with
        | true =>
          cases rest with
          | nil => simp [escNext] at hA
          | cons nx rest2 =>
            rw [resolveEscapesUtf8_esc hA, resolveEscapes_esc hA]
            simp only [allAscii, List.all_cons, Bool.and_eq_true, decide_eq_true_eq] at harest
            obtain ⟨hnx, harest2⟩ := harest
            rw [show utf8Byte nx = [nx] by simp [utf8Byte, hnx], List.singleton_append]
            congr 1
            refine ih rest2 ?_ ?_
            · simp only [List.length_cons] at ht
              omega
            · simp only [allAscii]
              exact harest2
        | false =>
          rw [resolveEscapesUtf8_other rest hA, resolveEscapes_other rest hA]
          rw [show utf8Byte ch = [ch] by simp [utf8Byte, hch], List.singleton_append]
          congr 1
          refine ih rest ?_ ?_
          · simp only [List.length_cons] at ht
            omega
          · simp only [allAscii]
            exact harest
  exact main t.length t (le_refl _) hascii

/-- A template with no unescaped left brace parses to the single flushed
literal: its escape-resolved text with every byte pushed through the
`as char` re-encoding, consuming everything. -/
theorem parse_noChoice : ∀ fuel : Nat, ∀ bytes lit : List Nat, ∀ nodes : List Node,
    2 * bytes.length + 1 ≤ fuel → noChoiceByte bytes = true →
    parse_sequence fuel bytes [] lit nodes =
      .ok (flush_literal (lit ++ resolveEscapesUtf8 bytes) nodes, []) := by
  intro fuel
  induction fuel with
  | zero => intro bytes lit nodes h _; omega
  | succ f ih =>
    intro bytes lit nodes h hnc
    cases bytes with
    | nil => simp [parse_sequence, resolveEscapesUtf8]
    | cons ch rest =>
      simp only [List.length_cons] at h
      simp only [parse_sequence]
      cases hA : (ch == 92 && escNext rest) with
      | true =>
        cases rest with
        | nil => simp [escNext] at hA
        | cons nx rest2 =>
          simp only [hA, if_true, List.tail_cons, List.headD_cons]
          rw [noChoiceByte_esc hA] at hnc
          rw [ih rest2 (lit ++ utf8Byte nx) nodes (by simp only [List.length_cons] at *; omega) hnc]
          rw [resolveEscapesUtf8_esc hA, List.append_assoc]
      | false =>
        have hC : (ch == 123) = false := by
          cases hck : (ch == 123) with
          | false => rfl
          | true =>
            have hch : ch = 123 := by simpa using hck
            subst hch
            rw [noChoiceByte_open rest] at hnc
            cases hnc
        rw [noChoiceByte_other rest hA hC] at hnc
        simp only [hA, Bool.false_eq_true, if_false, hC]
        have hcontains : List.contains [] ch = false := rfl
        simp only [hcontains, Bool.false_eq_true, if_false]
        rw [ih rest (lit ++ utf8Byte ch) nodes (by omega) hnc]
        rw [resolveEscapesUtf8_other rest hA, List.append_assoc]

/-- Every parse either succeeds or panics with `Unclosed brace`, and which of
the two happens is decided exactly by the brace-balance scan. -/
theorem parse_template_classify (t : List Nat) :
    (parse_template t ≠ .outOfFuel) ∧
    ((∃ ns, parse_template t = .ok ns) ↔ braceOk t 0 = true) ∧
    ((parse_template t = .unclosedBrace) ↔ braceOk t 0 = false) := by
  have hp := (parse_progress (2 * t.length + 2)).1 t [] [] [] (by omega)
  have hb := (parse_braceOk (2 * t.length + 2)).1 t [] [] [] 0 (Or.inl ⟨rfl, rfl⟩)
  cases hr : parse_sequence (2 * t.length + 2) t [] [] [] with
  | ok p =>
    obtain ⟨ns, rest⟩ := p
    have hpt : parse_template t = .ok ns := by unfold parse_template; rw [hr]
    rw [hr] at hb
    simp only [SeqB] at hb
    obtain ⟨hbo, hrest⟩ := hb
    have hrnil : rest = [] := by
      rcases hrest with hnil | ⟨c, r2, _, hmem⟩
      · exact hnil
      · simp at hmem
    subst hrnil
    have hbt : braceOk t 0 = true := by rw [hbo]; rfl
    refine ⟨?_, ?_, ?_⟩
    · rw [hpt]
      intro hcon
      cases hcon
    · rw [hpt, hbt]
      simp
    · rw [hpt, hbt]
      simp
  | unclosedBrace =>
    have hpt : parse_template t = .unclosedBrace := by unfold parse_template; rw [hr]
    rw [hr] at hb
    simp only [SeqB] at hb
    refine ⟨?_, ?_, ?_⟩
    · rw [hpt]
      intro hcon
      cases hcon
    · rw [hpt, hb]
      simp
    · rw [hpt, hb]
      simp
  | outOfFuel =>
    rw [hr] at hp
    exact absurd hp id

-- =============================================================================
-- Odometer theory
-- =============================================================================

theorem setPosDigits_zero (counts : List Nat) :
    setPosDigits counts 0 = List.replicate counts.length 0 := by
  induction counts with
  | nil => rfl
  | cons c cs ih =>
    simp only [setPosDigits, Nat.zero_mod, Nat.zero_div, ih, List.length_cons,
      List.replicate_succ]

theorem one_le_listProd {l : List Nat} (h : ∀ c ∈ l, 1 ≤ c) : 1 ≤ l.prod := by
  induction l with
  | nil => simp
  | cons c cs ih =>
    rw [List.prod_cons]
    have hc := h c (by simp)
    have hcs := ih (fun x hx => h x (by simp [hx]))
    exact Nat.mul_le_mul hc hcs

/-- One `advance` from the digits of flat index `k` gives the digits of flat
index `k + 1` (for positive radices; this includes the wrap at the end of the
space since `setPosDigits` is computed modulo each radix). -/
theorem advance_setPos (counts : List Nat) (h : ∀ c ∈ counts, 1 ≤ c) (k : Nat) :
    advanceDigits (setPosDigits counts k) counts = setPosDigits counts (k + 1) := by
  induction counts generalizing k with
  | nil => rfl
  | cons c cs ih =>
    have hc : 1 ≤ c := h c (by simp)
    have hcs : ∀ x ∈ cs, 1 ≤ x := fun x hx => h x (by simp [hx])
    simp only [setPosDigits, advanceDigits]
    have hmodlt : k % c < c := Nat.mod_lt k (by omega)
    have e : c * (k / c) + (k % c + 1) = k + 1 := by
      have := Nat.div_add_mod k c
      omega
    by_cases hlt : k % c + 1 < c
    · rw [if_pos hlt]
      have h1 : (k + 1) % c = k % c + 1 := by
        rw [← e, Nat.mul_add_mod, Nat.mod_eq_of_lt hlt]
      have h2 : (k + 1) / c = k / c := by
        rw [← e, Nat.mul_add_div (by omega), Nat.div_eq_of_lt hlt, Nat.add_zero]
      rw [h1, h2]
    · rw [if_neg hlt]
      have hr : k % c + 1 = c := by omega
      have e2 : c * (k / c) + c = k + 1 := by omega
      have h1 : (k + 1) % c = 0 := by
        rw [← e2, Nat.mul_add_mod, Nat.mod_self]
      have h2 : (k + 1) / c = k / c + 1 := by
        rw [← e2, Nat.mul_add_div (by omega), Nat.div_self (by omega)]
      rw [h1, h2, ih hcs (k / c)]

/-- `advance` iterated `k` times from the zero state is `set_position k`. -/
theorem advanceN_new (counts : List Nat) (h : ∀ c ∈ counts, 1 ≤ c) (k : Nat) :
    (Odometer.new counts).advanceN k = ⟨setPosDigits counts k, counts⟩ := by
  induction k with
  | zero =>
    simp only [Odometer.advanceN, Odometer.new, setPosDigits_zero]
  | succ n ih =>
    simp only [Odometer.advanceN, ih, Odometer.advance, advance_setPos counts h n]

/-- Seeking to the full product gives the all-zero state. -/
theorem setPosDigits_prod (counts : List Nat) (h : ∀ c ∈ counts, 1 ≤ c) :
    setPosDigits counts counts.prod = List.replicate counts.length 0 := by
  induction counts with
  | nil => rfl
  | cons c cs ih =>
    have hc : 1 ≤ c := h c (by simp)
    simp only [setPosDigits, List.prod_cons, List.length_cons, List.replicate_succ,
      Nat.mul_mod_right, Nat.mul_div_cancel_left _ (by omega : 0 < c)]
    rw [ih (fun x hx => h x (by simp [hx]))]

/-- The odometer digits only depend on the flat index modulo the space size. -/
theorem setPosDigits_mod (counts : List Nat) (k : Nat) :
    setPosDigits counts k = setPosDigits counts (k % counts.prod) := by
  induction counts generalizing k with
  | nil => rfl
  | cons c cs ih =>
    simp only [setPosDigits, List.prod_cons]
    rw [Nat.mod_mod_of_dvd k (dvd_mul_right c cs.prod), Nat.mod_mul_right_div_self]
    rw [← ih (k / c)]

theorem expand_flush (s : List Nat) : expand_to_strings (flush_literal s []) = [s] := by
  unfold flush_literal
  split
  · rename_i h
    have hs : s = [] := by simpa using h
    subst hs
    rfl
  · simp [expand_to_strings, expand_node]

-- =============================================================================
-- Claims C4, C8, C9, C10
-- =============================================================================

/-- C4: for every radix vector with entries at least 1 and every flat index
`k` below the product, `set_position k` equals `k` calls of `advance` from the
all-zero state; one further `advance` from the final combination wraps to the
all-zero tuple; and for counts `[2, 3]` the six positions are distinct and
cover `{0, 1} × {0, 1, 2}` with slot 0 fastest. -/
theorem c4_odometer_bijection (counts : List Nat) (k : Nat)
    (h1 : ∀ c ∈ counts, 1 ≤ c) (h2 : k < counts.prod) :
    ((Odometer.new counts).set_position k).indices =
      ((Odometer.new counts).advanceN k).indices ∧
    (((Odometer.new counts).set_position (counts.prod - 1)).advance).indices =
      List.replicate counts.length 0 ∧
    (List.range 6).map (setPosDigits [2, 3]) =
      [[0, 0], [1, 0], [0, 1], [1, 1], [0, 2], [1, 2]] ∧
    ((List.range 6).map (setPosDigits [2, 3])).Nodup ∧
    (∀ a ∈ [0, 1], ∀ b ∈ [0, 1, 2], [a, b] ∈ (List.range 6).map (setPosDigits [2, 3])) := by
  refine ⟨?_, ?_, by decide, by decide, by decide⟩
  · rw [advanceN_new counts h1 k]
    rfl
  · show advanceDigits (setPosDigits counts (counts.prod - 1)) counts = _
    rw [advance_setPos counts h1 (counts.prod - 1),
      Nat.sub_add_cancel (one_le_listProd h1), setPosDigits_prod counts h1]

theorem c4_odometer_bijection_witness :
    (∀ c ∈ ([2, 3] : List Nat), 1 ≤ c) ∧ 5 < ([2, 3] : List Nat).prod ∧
    ((Odometer.new [2, 3]).set_position 5).indices =
      ((Odometer.new [2, 3]).advanceN 5).indices ∧
    (((Odometer.new [2, 3]).set_position (([2, 3] : List Nat).prod - 1)).advance).indices =
      List.replicate ([2, 3] : List Nat).length 0 :=
  ⟨by decide, by decide, (c4_odometer_bijection [2, 3] 5 (by decide) (by decide)).1,
    (c4_odometer_bijection [2, 3] 5 (by decide) (by decide)).2.1⟩

/-- C8: parsing never silently accepts an unterminated choice group: for every
template it either succeeds or is the fatal `Unclosed brace` error, the error
happens exactly when a choice group is still open at end of input (the
brace-balance scan fails), and parsing succeeds on every well-formed template;
in particular the template `"{a"` is the fatal error. -/
theorem c8_unclosed_brace_fatal (t : List Nat) :
    (parse_template t ≠ .outOfFuel) ∧
    ((∃ ns, parse_template t = .ok ns) ↔ braceOk t 0 = true) ∧
    ((parse_template t = .unclosedBrace) ↔ braceOk t 0 = false) ∧
    parse_template [123, 97] = .unclosedBrace :=
  ⟨(parse_template_classify t).1, (parse_template_classify t).2.1,
    (parse_template_classify t).2.2, rfl⟩

theorem c8_unclosed_brace_fatal_witness :
    ((∃ ns, parse_template [97, 98] = .ok ns) ↔ braceOk [97, 98] 0 = true) ∧
    braceOk [97, 98] 0 = true :=
  ⟨(c8_unclosed_brace_fatal [97, 98]).2.1, rfl⟩

/-- C9 counterexample: the two-byte template `"\u00e9"` (bytes 0xC3 0xA9, no
choice group, no escape) parses to the single literal with bytes
0xC3 0x83 0xC2 0xA9 (`"\u00c3\u00a9"`): each template byte is pushed
`as char` onto a `String` and re-encoded as two UTF-8 bytes.  The unique
variation is therefore not the template's escape-resolved literal text. -/
theorem c9_counterexample :
    parse_template [195, 169] = .ok [Node.lit [195, 131, 194, 169]] ∧
    expand_to_strings [Node.lit [195, 131, 194, 169]] = [[195, 131, 194, 169]] ∧
    noChoiceByte [195, 169] = true ∧
    resolveEscapes [195, 169] = [195, 169] ∧
    ([195, 131, 194, 169] : List Nat) ≠ [195, 169] :=
  ⟨rfl, by simp [expand_to_strings, expand_node], rfl, rfl, by decide⟩

/-- C9 (amended): a template with no unescaped choice group parses to at most
one literal node and expands to exactly one variation: the template text with
escapes resolved and every remaining byte pushed through the `as char`
re-encoding (the identity on ASCII bytes, two UTF-8 bytes for 0x80..0xFF).
On an all-ASCII template this is exactly the escape-resolved literal text; in
particular `"\{literal\}"` parses to the single literal `"{literal}"` with
zero choice nodes. -/
theorem c9_no_choice_roundtrip (t : List Nat) (hnc : noChoiceByte t = true) :
    parse_template t = .ok (flush_literal (resolveEscapesUtf8 t) []) ∧
    expand_to_strings (flush_literal (resolveEscapesUtf8 t) []) = [resolveEscapesUtf8 t] ∧
    (allAscii t = true → resolveEscapesUtf8 t = resolveEscapes t) ∧
    parse_template [92, 123, 108, 105, 116, 101, 114, 97, 108, 92, 125] =
      .ok [Node.lit [123, 108, 105, 116, 101, 114, 97, 108, 125]] ∧
    expand_to_strings [Node.lit [123, 108, 105, 116, 101, 114, 97, 108, 125]] =
      [[123, 108, 105, 116, 101, 114, 97, 108, 125]] := by
  refine ⟨?_, expand_flush (resolveEscapesUtf8 t), resolveEscapesUtf8_ascii t, rfl,
    by simp [expand_to_strings, expand_node]⟩
  unfold parse_template
  rw [parse_noChoice (2 * t.length + 2) t [] [] (by omega) hnc, List.nil_append]

theorem c9_no_choice_roundtrip_witness :
    noChoiceByte [92, 123, 108, 105, 116, 101, 114, 97, 108, 92, 125] = true ∧
    allAscii [92, 123, 108, 105, 116, 101, 114, 97, 108, 92, 125] = true ∧
    parse_template [92, 123, 108, 105, 116, 101, 114, 97, 108, 92, 125] =
      .ok (flush_literal
        (resolveEscapesUtf8 [92, 123, 108, 105, 116, 101, 114, 97, 108, 92, 125]) []) ∧
    expand_to_strings
        (flush_literal
          (resolveEscapesUtf8 [92, 123, 108, 105, 116, 101, 114, 97, 108, 92, 125]) []) =
      [resolveEscapesUtf8 [92, 123, 108, 105, 116, 101, 114, 97, 108, 92, 125]] ∧
    resolveEscapesUtf8 [92, 123, 108, 105, 116, 101, 114, 97, 108, 92, 125] =
      resolveEscapes [92, 123, 108, 105, 116, 101, 114, 97, 108, 92, 125] :=
  ⟨rfl, rfl,
    (c9_no_choice_roundtrip [92, 123, 108, 105, 116, 101, 114, 97, 108, 92, 125] rfl).1,
    (c9_no_choice_roundtrip [92, 123, 108, 105, 116, 101, 114, 97, 108, 92, 125] rfl).2.1,
    (c9_no_choice_roundtrip [92, 123, 108, 105, 116, 101, 114, 97, 108, 92, 125] rfl).2.2.1 rfl⟩

/-- C10: at top level (empty stop set, outside every choice group) an
unescaped right brace or pipe byte is not an error: `parse_sequence` consumes
it as an ordinary literal character, and it appears verbatim in the expansion,
e.g. for the template `"a}|b"`. -/
theorem c10_toplevel_delimiter_literal (fuel : Nat) (bytes lit : List Nat) (nodes : List Node)
    (ch : Nat) (h : ch = 124 ∨ ch = 125) :
    parse_sequence (fuel + 1) (ch :: bytes) [] lit nodes =
      parse_sequence fuel bytes [] (lit ++ [ch]) nodes ∧
    parse_template [97, 125, 124, 98] = .ok [Node.lit [97, 125, 124, 98]] ∧
    expand_to_strings [Node.lit [97, 125, 124, 98]] = [[97, 125, 124, 98]] := by
  refine ⟨?_, rfl, by simp [expand_to_strings, expand_node]⟩
  rcases h with h | h <;> subst h <;> rfl

theorem c10_toplevel_delimiter_literal_witness :
    parse_sequence 1 [125] [] [] [] = parse_sequence 0 [] [] ([] ++ [125]) [] ∧
    parse_template [97, 125, 124, 98] = .ok [Node.lit [97, 125, 124, 98]] :=
  ⟨(c10_toplevel_delimiter_literal 0 [] [] [] 125 (Or.inr rfl)).1,
    (c10_toplevel_delimiter_literal 0 [] [] [] 125 (Or.inr rfl)).2.1⟩

-- =============================================================================
-- Claim C5: slot boundary cap
-- =============================================================================

theorem le_findBoundaryLoop (nodes : List Node) (start : Nat) :
    ∀ fuel e, e ≤ findBoundaryLoop nodes start fuel e := by
  intro fuel
  induction fuel with
  | zero => intro e; exact le_refl e
  | succ f ih =>
    intro e
    simp only [findBoundaryLoop]
    split
    · exact le_trans (by omega) (ih (e + 1))
    · exact le_refl e

/-- The `while` loop of `find_slot_boundary` preserves: the run is a single
node, or its cross-product is within the cap. -/
theorem findBoundaryLoop_inv (nodes : List Node) (start : Nat) :
    ∀ fuel e, start + 1 ≤ e →
    (e = start + 1 ∨ count_variations (sliceNodes nodes start e) ≤ MAX_VARIATIONS_PER_SLOT) →
    (findBoundaryLoop nodes start fuel e = start + 1 ∨
      count_variations (sliceNodes nodes start (findBoundaryLoop nodes start fuel e)) ≤
        MAX_VARIATIONS_PER_SLOT) := by
  intro fuel
  induction fuel with
  | zero => intro e _ hinv; exact hinv
  | succ f ih =>
    intro e he hinv
    simp only [findBoundaryLoop]
    split
    · rename_i hcond
      exact ih (e + 1) (by omega) (Or.inr hcond.2)
    · exact hinv

theorem lt_find_slot_boundary (nodes : List Node) (start : Nat) :
    start < find_slot_boundary nodes start :=
  lt_of_lt_of_le (by omega) (le_findBoundaryLoop nodes start nodes.length (start + 1))

theorem find_slot_boundary_inv (nodes : List Node) (start : Nat) :
    find_slot_boundary nodes start = start + 1 ∨
    count_variations (sliceNodes nodes start (find_slot_boundary nodes start)) ≤
      MAX_VARIATIONS_PER_SLOT :=
  findBoundaryLoop_inv nodes start nodes.length (start + 1) (le_refl _) (Or.inl rfl)

theorem slotRuns_boundary (nodes : List Node) :
    ∀ fuel i s e, (s, e) ∈ slotRunsF nodes fuel i → e = find_slot_boundary nodes s := by
  intro fuel
  induction fuel with
  | zero => intro i s e h; cases h
  | succ f ih =>
    intro i s e h
    simp only [slotRunsF] at h
    split at h
    · rcases List.mem_cons.mp h with heq | htail
      · rw [Prod.mk.injEq] at heq
        rw [heq.1, heq.2]
      · exact ih _ s e htail
    · cases h

/-- C5: every slot run cut by the slot compiler is either a single AST node,
or spans at least two nodes with cross-product within the 8192 cap; a run's
cross-product exceeds the cap only in the single-node case. -/
theorem c5_slot_boundary_cap (nodes : List Node) (s e : Nat)
    (hmem : (s, e) ∈ slotRuns nodes) :
    (e = s + 1 ∨
      (2 ≤ e - s ∧ count_variations (sliceNodes nodes s e) ≤ MAX_VARIATIONS_PER_SLOT)) ∧
    (MAX_VARIATIONS_PER_SLOT < count_variations (sliceNodes nodes s e) → e = s + 1) := by
  have hb := slotRuns_boundary nodes (nodes.length + 1) 0 s e hmem
  have hinv := find_slot_boundary_inv nodes s
  have hlt := lt_find_slot_boundary nodes s
  rw [← hb] at hinv hlt
  constructor
  · by_cases hse : e = s + 1
    · exact Or.inl hse
    · rcases hinv with h | h
      · exact Or.inl h
      · exact Or.inr ⟨by omega, h⟩
  · intro hgt
    rcases hinv with h | h
    · exact h
    · omega

theorem c5_slot_boundary_cap_witness :
    ((0, 2) ∈ slotRuns [Node.choice [[Node.lit [97]], [Node.lit [98]]], Node.lit [99]]) ∧
    (2 = 0 + 1 ∨ (2 ≤ 2 - 0 ∧
      count_variations
          (sliceNodes [Node.choice [[Node.lit [97]], [Node.lit [98]]], Node.lit [99]] 0 2) ≤
        MAX_VARIATIONS_PER_SLOT)) :=
  ⟨by decide, (c5_slot_boundary_cap
    [Node.choice [[Node.lit [97]], [Node.lit [98]]], Node.lit [99]] 0 2 (by decide)).1⟩

-- =============================================================================
-- Claim C6: entropy gate
-- =============================================================================

theorem logb_cast_lt_37 (n : Nat) : Real.logb 2 (n : ℝ) < 37 ↔ n < 2 ^ 37 := by
  by_cases hn : n = 0
  · subst hn
    simp [Real.logb_zero]
  · have hx : (0 : ℝ) < n := Nat.cast_pos.mpr (Nat.pos_of_ne_zero hn)
    rw [Real.logb_lt_iff_lt_rpow (by norm_num) hx,
      show ((37 : ℝ)) = ((37 : ℕ) : ℝ) by norm_num, Real.rpow_natCast]
    constructor <;> intro h <;> exact_mod_cast h

theorem validate_entropy_rejects_iff (slots : List Slot) :
    validate_entropy_rejects slots ↔ total_variations slots < 2 ^ 37 :=
  logb_cast_lt_37 (total_variations slots)

/-- C6: the entropy gate rejects exactly the configurations whose total
variation count is below `2 ^ 37` (fewer than 37 bits); a space of exactly
`2 ^ 36` variations is rejected and one of exactly `2 ^ 37` is accepted. -/
theorem c6_entropy_gate :
    (∀ slots : List Slot, validate_entropy_rejects slots ↔ total_variations slots < 2 ^ 37) ∧
    total_variations (List.replicate 36 (Slot.from_variations [[97], [98]])) = 2 ^ 36 ∧
    validate_entropy_rejects (List.replicate 36 (Slot.from_variations [[97], [98]])) ∧
    total_variations (List.replicate 37 (Slot.from_variations [[97], [98]])) = 2 ^ 37 ∧
    ¬validate_entropy_rejects (List.replicate 37 (Slot.from_variations [[97], [98]])) := by
  have h36 : total_variations (List.replicate 36 (Slot.from_variations [[97], [98]])) = 2 ^ 36 :=
    by decide
  have h37 : total_variations (List.replicate 37 (Slot.from_variations [[97], [98]])) = 2 ^ 37 :=
    by decide
  refine ⟨validate_entropy_rejects_iff, h36, ?_, h37, ?_⟩
  · rw [validate_entropy_rejects_iff, h36]
    norm_num
  · rw [validate_entropy_rejects_iff, h37]
    norm_num

-- =============================================================================
-- Claim C7: envelope builder
-- =============================================================================

theorem drop_append_add (l1 l2 : List Nat) (k : Nat) :
    (l1 ++ l2).drop (l1.length + k) = l2.drop k := by
  rw [← List.drop_drop, List.drop_left]

/-- Writing at the end of already-written content appends it and keeps the
tail of the underlying buffer beyond the written region. -/
theorem writeAt_after (pre rest src : List Nat) :
    writeAt (pre ++ rest) pre.length src = (pre ++ src) ++ rest.drop src.length := by
  unfold writeAt
  rw [List.take_left, drop_append_add]

/-- What the four writes of `build_commit_object` produce: the commit envelope
followed by the untouched remainder of the buffer, and the returned length is
the envelope length.  In particular the written envelope is a pure function of
header and message (the buffer contributes only its leftover tail beyond the
returned length). -/
theorem build_commit_object_spec (header message buffer : List Nat) :
    build_commit_object header message buffer =
      (commit_object_bytes header message ++
        buffer.drop (commit_object_bytes header message).length,
      (commit_object_bytes header message).length) := by
  simp only [build_commit_object, commit_object_bytes]
  set L := header.length + message.length + 1 with hL
  set G := commitTag ++ natToDecimal L ++ [0] with hG
  have e1 : writeAt buffer 0 G = G ++ buffer.drop G.length := by
    unfold writeAt
    simp
  rw [e1, writeAt_after G _ header, List.drop_drop]
  rw [show G.length + header.length = (G ++ header).length by simp only [List.length_append]; try omega]
  rw [writeAt_after (G ++ header) _ message, List.drop_drop]
  rw [show (G ++ header).length + message.length = ((G ++ header) ++ message).length by simp only [List.length_append]; try omega]
  rw [writeAt_after ((G ++ header) ++ message) _ [10], List.drop_drop]
  rw [Prod.mk.injEq]
  constructor
  · simp only [List.append_assoc, List.length_append, List.length_cons, List.length_nil,
      List.singleton_append]
    try congr 5
    try omega
  · simp only [List.length_append, List.length_cons, List.length_nil]
    try omega

/-- C7 counterexample: the envelope written for header `"H"` and payload `"a"`
is not the concatenation `decimal-length ++ NUL ++ header ++ payload ++ LF`
claimed (it starts with the object-type tag `"commit "`). -/
theorem c7_counterexample :
    ((build_commit_object [72] [97] (List.replicate 32 0)).1).take
        ((build_commit_object [72] [97] (List.replicate 32 0)).2) ≠
      natToDecimal (([72] : List Nat).length + ([97] : List Nat).length + 1) ++ [0]
        ++ [72] ++ [97] ++ [10] := by
  decide

/-- C7 amended: into a buffer at least as long as the envelope,
`build_commit_object` writes exactly
`"commit " ++ decimal(len(header) + len(payload) + 1) ++ NUL ++ header ++
payload ++ LF`, returns that total byte count, leaves the buffer length
unchanged, and the written prefix is a pure function of header and payload. -/
theorem c7_commit_envelope (header message buffer : List Nat)
    (hbuf : (commit_object_bytes header message).length ≤ buffer.length) :
    (build_commit_object header message buffer).2 =
      (commit_object_bytes header message).length ∧
    ((build_commit_object header message buffer).1).take
        ((build_commit_object header message buffer).2) = commit_object_bytes header message ∧
    commit_object_bytes header message =
      commitTag ++ natToDecimal (header.length + message.length + 1) ++ [0]
        ++ header ++ message ++ [10] ∧
    (build_commit_object header message buffer).1.length = buffer.length := by
  have hs := build_commit_object_spec header message buffer
  rw [hs]
  refine ⟨rfl, List.take_left _ _, rfl, ?_⟩
  simp only [List.length_append, List.length_drop]
  omega

theorem c7_commit_envelope_witness :
    (commit_object_bytes [72] [97]).length ≤ (List.replicate 32 0 : List Nat).length ∧
    (build_commit_object [72] [97] (List.replicate 32 0)).2 =
      (commit_object_bytes [72] [97]).length ∧
    ((build_commit_object [72] [97] (List.replicate 32 0)).1).take
        ((build_commit_object [72] [97] (List.replicate 32 0)).2) =
      commit_object_bytes [72] [97] :=
  ⟨by decide, (c7_commit_envelope [72] [97] (List.replicate 32 0) (by decide)).1,
    (c7_commit_envelope [72] [97] (List.replicate 32 0) (by decide)).2.1⟩

-- =============================================================================
-- Claims C1 and C2: mining on the template "{a|b}" with header "H"
-- =============================================================================

theorem scan_chunk_found (check : List Nat → Bool) (counts digits : List Nat)
    (h : check digits = true) (n : Nat) :
    scan_chunk check counts (n + 1) digits = some digits := by
  simp only [scan_chunk, h, if_true]

theorem scan_chunk_none (check : List Nat → Bool) (counts : List Nat)
    (h1 : ∀ c ∈ counts, 1 ≤ c) (hfail : ∀ k, check (setPosDigits counts k) = false) :
    ∀ n k, scan_chunk check counts n (setPosDigits counts k) = none := by
  intro n
  induction n with
  | zero => intro k; rfl
  | succ m ih =>
    intro k
    simp only [scan_chunk, hfail k, Bool.false_eq_true, if_false]
    rw [advance_setPos counts h1 k]
    exact ih (k + 1)

/-- A worker whose very first candidate matches returns it without ever
touching the shared attempts counter. -/
theorem mine_loop_found_first (check : List Nat → Bool) (counts : List Nat)
    (T total fuel : Nat) (h : check (setPosDigits counts 0) = true) :
    mine_thread_loop check counts T total (fuel + 1) 0 0 = (some (setPosDigits counts 0), 0) := by
  simp only [mine_thread_loop]
  rw [show CHUNK_SIZE = 999999 + 1 from rfl, scan_chunk_found check counts _ h 999999]

/-- A single worker whose candidates never match and whose space fits in one
chunk scans the whole fixed-size chunk, adds `CHUNK_SIZE` to the counter
once, and stops. -/
theorem mine_loop_exhaust_one_chunk (check : List Nat → Bool) (counts : List Nat)
    (total fuel : Nat) (h1 : ∀ c ∈ counts, 1 ≤ c)
    (hfail : ∀ k, check (setPosDigits counts k) = false) (htot : total ≤ CHUNK_SIZE) :
    mine_thread_loop check counts 1 total (fuel + 1) 0 0 = (none, CHUNK_SIZE) := by
  simp only [mine_thread_loop]
  rw [scan_chunk_none check counts h1 hfail CHUNK_SIZE 0]
  rw [if_pos (by omega : total ≤ 0 + 1 * CHUNK_SIZE)]
  norm_num

/-- Mining `"{a|b}"` with header `"H"` when the target is the digest prefix of
the `"a"` envelope: the first candidate wins, the reported message is `"a"`,
the reported hash is the hex digest, and the reported attempts counter is 0
(the counter only advances at chunk boundaries). -/
theorem mine_ab_success (digest : List Nat → List Nat) :
    mine_vanity_hash_single digest (expand_template [123, 97, 124, 98, 125]) [72]
        (hashPrefix32 (digest (commit_object_bytes [72] [97]))) =
      (some ⟨[97], hash_to_hex (digest (commit_object_bytes [72] [97])), 0⟩, 0) := by
  have hcheck : mine_check digest (expand_template [123, 97, 124, 98, 125]) [72]
      (hashPrefix32 (digest (commit_object_bytes [72] [97])))
      (setPosDigits (slot_counts (expand_template [123, 97, 124, 98, 125])) 0) = true := by
    show (hashPrefix32 (digest (commit_object_bytes [72] [97])) ==
      hashPrefix32 (digest (commit_object_bytes [72] [97]))) = true
    exact beq_self_eq_true _
  simp only [mine_vanity_hash_single]
  rw [show total_variations (expand_template [123, 97, 124, 98, 125]) = 2 from rfl]
  rw [mine_loop_found_first _ _ 1 2 2 hcheck]
  rfl

/-- Mining `"{a|b}"` with header `"H"` when the target matches neither
candidate's digest: failure (no result), with the attempts counter at
`CHUNK_SIZE` — a full fixed-size chunk was hashed, re-scanning the
2-candidate space cyclically. -/
theorem mine_ab_exhaust (digest : List Nat → List Nat) (target : Nat)
    (ha : hashPrefix32 (digest (commit_object_bytes [72] [97])) ≠ target)
    (hb : hashPrefix32 (digest (commit_object_bytes [72] [98])) ≠ target) :
    mine_vanity_hash_single digest (expand_template [123, 97, 124, 98, 125]) [72] target =
      (none, CHUNK_SIZE) := by
  have hfail : ∀ k, mine_check digest (expand_template [123, 97, 124, 98, 125]) [72] target
      (setPosDigits (slot_counts (expand_template [123, 97, 124, 98, 125])) k) = false := by
    intro k
    rw [show setPosDigits (slot_counts (expand_template [123, 97, 124, 98, 125])) k = [k % 2]
      from rfl]
    rcases Nat.mod_two_eq_zero_or_one k with h | h <;> rw [h]
    · show (hashPrefix32 (digest (commit_object_bytes [72] [97])) == target) = false
      exact beq_eq_false_iff_ne.mpr ha
    · show (hashPrefix32 (digest (commit_object_bytes [72] [98])) == target) = false
      exact beq_eq_false_iff_ne.mpr hb
  have hcounts : ∀ c ∈ slot_counts (expand_template [123, 97, 124, 98, 125]), 1 ≤ c := by decide
  have hchunk : (2 : Nat) ≤ CHUNK_SIZE := by decide
  simp only [mine_vanity_hash_single]
  rw [show total_variations (expand_template [123, 97, 124, 98, 125]) = 2 from rfl]
  rw [mine_loop_exhaust_one_chunk _ _ 2 2 hcounts hfail hchunk]

/-- C1 counterexample: with the constant all-zero digest and the matching
target, mining `"{a|b}"` with header `"H"` succeeds with candidate `"a"` but
reports an attempts count of 0, not 1 — the shared counter is only advanced
at chunk boundaries, and the winning (partial) chunk is never counted. -/
theorem c1_counterexample :
    mine_vanity_hash_single (fun _ => List.replicate 20 0)
        (expand_template [123, 97, 124, 98, 125]) [72] 0 =
      (some ⟨[97], List.replicate 40 48, 0⟩, 0) ∧ (0 : Nat) ≠ 1 := by
  constructor
  · have h := mine_ab_success (fun _ => List.replicate 20 0)
    exact h
  · decide

/-- C1 amended: for every digest function, mining the template `"{a|b}"` with
envelope header `"H"` and a target equal to the leading 32 bits of the digest
of the `"a"` envelope reports success with winning candidate text `"a"`, the
hex digest of that envelope, and an attempts count of 0: the mining result
carries the value of the process-wide attempts counter at the moment of
success, and that counter counts only completed chunks, so the partial
winning chunk contributes nothing here. -/
theorem c1_mining_success_reports_counter (digest : List Nat → List Nat) (target : Nat)
    (h : target = hashPrefix32 (digest (commit_object_bytes [72] [97]))) :
    mine_vanity_hash_single digest (expand_template [123, 97, 124, 98, 125]) [72] target =
      (some ⟨[97], hash_to_hex (digest (commit_object_bytes [72] [97])), 0⟩, 0) := by
  subst h
  exact mine_ab_success digest

theorem c1_mining_success_reports_counter_witness :
    mine_vanity_hash_single (fun _ => List.replicate 20 0)
        (expand_template [123, 97, 124, 98, 125]) [72]
        (hashPrefix32 ((fun _ => List.replicate 20 0) (commit_object_bytes [72] [97]))) =
      (some ⟨[97],
        hash_to_hex ((fun _ => List.replicate 20 0) (commit_object_bytes [72] [97])), 0⟩, 0) :=
  c1_mining_success_reports_counter (fun _ => List.replicate 20 0) _ rfl

/-- C2 counterexample: with the constant all-zero digest and target 1 (which
matches neither candidate), single-worker mining of `"{a|b}"` reports failure
after 1,000,000 counted attempts — a full fixed-size chunk — not after
exactly 2. -/
theorem c2_counterexample :
    mine_vanity_hash_single (fun _ => List.replicate 20 0)
        (expand_template [123, 97, 124, 98, 125]) [72] 1 =
      (none, 1000000) ∧ (1000000 : Nat) ≠ 2 := by
  constructor
  · exact mine_ab_exhaust (fun _ => List.replicate 20 0) 1 (by decide) (by decide)
  · decide

/-- C2 amended: for a target matching neither candidate digest of `"{a|b}"`,
single-worker mining reports failure — no match text, an outcome distinct
from success — after `CHUNK_SIZE` = 1,000,000 counted hash attempts (the
fixed-size chunk is scanned in full, cycling through the 2-candidate space),
not after exactly 2. -/
theorem c2_mining_exhaustion_distinct (digest : List Nat → List Nat) (target : Nat)
    (ha : hashPrefix32 (digest (commit_object_bytes [72] [97])) ≠ target)
    (hb : hashPrefix32 (digest (commit_object_bytes [72] [98])) ≠ target) :
    mine_vanity_hash_single digest (expand_template [123, 97, 124, 98, 125]) [72] target =
      (none, CHUNK_SIZE) ∧
    CHUNK_SIZE = 1000000 ∧
    total_variations (expand_template [123, 97, 124, 98, 125]) = 2 :=
  ⟨mine_ab_exhaust digest target ha hb, rfl, rfl⟩

theorem c2_mining_exhaustion_distinct_witness :
    hashPrefix32 ((fun _ => List.replicate 20 0) (commit_object_bytes [72] [97])) ≠ 1 ∧
    hashPrefix32 ((fun _ => List.replicate 20 0) (commit_object_bytes [72] [98])) ≠ 1 ∧
    mine_vanity_hash_single (fun _ => List.replicate 20 0)
        (expand_template [123, 97, 124, 98, 125]) [72] 1 =
      (none, CHUNK_SIZE) :=
  ⟨by decide, by decide,
    (c2_mining_exhaustion_distinct (fun _ => List.replicate 20 0) 1 (by decide) (by decide)).1⟩

-- =============================================================================
-- Claim C3: worker chunk schedule
-- =============================================================================

theorem workerOffsets_mem_fwd (T C total : Nat) :
    ∀ fuel s o, o ∈ workerOffsets T C total fuel s →
      ∃ j, o = s + j * (T * C) ∧ (j = 0 ∨ o < total) := by
  intro fuel
  induction fuel with
  | zero => intro s o h; cases h
  | succ f ih =>
    intro s o h
    simp only [workerOffsets] at h
    rcases List.mem_cons.mp h with heq | htail
    · exact ⟨0, by omega, Or.inl rfl⟩
    · split at htail
      · cases htail
      · rename_i hlt
        obtain ⟨j', hj', hcond⟩ := ih (s + T * C) o htail
        refine ⟨j' + 1, by rw [Nat.succ_mul]; omega, Or.inr ?_⟩
        rcases hcond with h0 | h0
        · subst h0; omega
        · exact h0

theorem workerOffsets_mem_bwd (T C total : Nat) :
    ∀ fuel s, total ≤ s + fuel * (T * C) → 1 ≤ fuel →
      ∀ j o, o = s + j * (T * C) → (j = 0 ∨ o < total) →
      o ∈ workerOffsets T C total fuel s := by
  intro fuel
  induction fuel with
  | zero => intro s _ h1; omega
  | succ f ih =>
    intro s hsuf _ j o hjo hcond
    simp only [workerOffsets]
    cases j with
    | zero =>
      have ho : o = s := by omega
      subst ho
      exact List.mem_cons_self o _
    | succ j' =>
      have ho : o < total := by
        rcases hcond with h0 | h0
        · cases h0
        · exact h0
      have hoTC : s + T * C ≤ o := by
        rw [hjo, Nat.succ_mul]
        omega
      have hnot : ¬(total ≤ s + T * C) := by omega
      rw [if_neg hnot]
      apply List.mem_cons_of_mem
      have hf1 : 1 ≤ f := by
        by_contra hf0
        have : f = 0 := by omega
        subst this
        simp only [Nat.succ_mul, Nat.zero_mul, Nat.zero_add] at hsuf
        omega
      refine ih (s + T * C) ?_ hf1 j' o ?_ (Or.inr ho)
      · rw [Nat.succ_mul] at hsuf
        omega
      · rw [hjo, Nat.succ_mul]
        omega

theorem workerVirtual_mem (T C total fuel t : Nat) (v : Nat) :
    v ∈ workerVirtualIndices T C total fuel t ↔
      ∃ o ∈ workerOffsets T C total fuel (t * C), ∃ i, i < C ∧ v = o + i := by
  unfold workerVirtualIndices
  constructor
  · intro hv
    obtain ⟨s, hs, hvs⟩ := List.mem_flatten.mp hv
    obtain ⟨o, ho, rfl⟩ := List.mem_map.mp hs
    obtain ⟨i, hi, rfl⟩ := List.mem_map.mp hvs
    exact ⟨o, ho, i, List.mem_range.mp hi, rfl⟩
  · rintro ⟨o, ho, i, hi, rfl⟩
    refine List.mem_flatten.mpr
      ⟨(List.range C).map (fun i => o + i), List.mem_map.mpr ⟨o, ho, rfl⟩, ?_⟩
    exact List.mem_map.mpr ⟨i, List.mem_range.mpr hi, rfl⟩

theorem workerOffsets_gap (T C total : Nat) (hT : 1 ≤ T) :
    ∀ fuel s, (workerOffsets T C total fuel s).Pairwise (fun a b => a + C ≤ b) := by
  intro fuel
  induction fuel with
  | zero => intro s; exact List.Pairwise.nil
  | succ f ih =>
    intro s
    simp only [workerOffsets]
    refine List.Pairwise.cons ?_ ?_
    · intro b hb
      split at hb
      · cases hb
      · obtain ⟨j, hj, _⟩ := workerOffsets_mem_fwd T C total f (s + T * C) b hb
        have hCT : C ≤ T * C := Nat.le_mul_of_pos_left C (by omega)
        omega
    · split
      · exact List.Pairwise.nil
      · exact ih (s + T * C)

/-- Under `T * C ∣ total`, every index a worker scans lies below `total` (no
chunk overshoots the space). -/
theorem workerVirtual_lt_total (T C total fuel t : Nat) (hT : 1 ≤ T)
    (ht : t < T) (hdvd : T * C ∣ total) (htot : 1 ≤ total) (v : Nat)
    (hv : v ∈ workerVirtualIndices T C total fuel t) : v < total := by
  obtain ⟨o, ho, i, hi, rfl⟩ := (workerVirtual_mem T C total fuel t _).mp hv
  obtain ⟨j, hj, hcond⟩ := workerOffsets_mem_fwd T C total fuel (t * C) o ho
  have hTC : T * C ≤ total := Nat.le_of_dvd (by omega) hdvd
  rcases hcond with h0 | h0
  · subst h0
    simp only [Nat.zero_mul, Nat.add_zero] at hj
    subst hj
    have hstep : (t + 1) * C ≤ T * C := Nat.mul_le_mul_right C (by omega)
    have : t * C + i < (t + 1) * C := by rw [Nat.succ_mul]; omega
    omega
  · have hCo : C ∣ o := by
      rw [hj]
      exact ⟨t + j * T, by ring⟩
    have hCtot : C ∣ total := dvd_trans ⟨T, by ring⟩ hdvd
    obtain ⟨q, hq⟩ := hCo
    obtain ⟨m, hm⟩ := hCtot
    have hqm : q < m := by
      by_contra hcon
      have hle : m ≤ q := by omega
      have : total ≤ o := by
        rw [hq, hm]
        exact Nat.mul_le_mul_left C hle
      omega
    have hoC : o + C ≤ total := by
      rw [hq, hm]
      calc C * q + C = C * (q + 1) := by ring
        _ ≤ C * m := Nat.mul_le_mul_left C (by omega)
    omega

theorem workerFlat_eq_virtual (T C total fuel t : Nat) (hT : 1 ≤ T)
    (ht : t < T) (hdvd : T * C ∣ total) (htot : 1 ≤ total) :
    workerFlatIndices T C total fuel t = workerVirtualIndices T C total fuel t := by
  unfold workerFlatIndices
  have hcongr : ∀ v ∈ workerVirtualIndices T C total fuel t, v % total = id v := by
    intro v hv
    exact Nat.mod_eq_of_lt (workerVirtual_lt_total T C total fuel t hT ht hdvd htot v hv)
  rw [List.map_congr_left hcongr, List.map_id]

theorem workerVirtual_nodup (T C total fuel t : Nat) (hT : 1 ≤ T) :
    (workerVirtualIndices T C total fuel t).Nodup := by
  unfold workerVirtualIndices
  rw [List.nodup_flatten]
  constructor
  · intro s hs
    obtain ⟨o, _, rfl⟩ := List.mem_map.mp hs
    exact List.Nodup.map (fun a b hab => by omega) (List.nodup_range C)
  · refine List.Pairwise.map _ ?_ (workerOffsets_gap T C total hT fuel (t * C))
    intro a b hab
    intro x hxa hxb
    obtain ⟨i, hi, rfl⟩ := List.mem_map.mp hxa
    obtain ⟨i2, hi2, he⟩ := List.mem_map.mp hxb
    rw [List.mem_range] at hi hi2
    omega

theorem chunkDigits_setPos (counts : List Nat) (h1 : ∀ c ∈ counts, 1 ≤ c) :
    ∀ n o, chunkDigits counts n (setPosDigits counts o) =
      (List.range n).map (fun i => setPosDigits counts (o + i)) := by
  intro n
  induction n with
  | zero => intro o; rfl
  | succ m ih =>
    intro o
    rw [List.range_succ_eq_map]
    simp only [chunkDigits, List.map_cons, Nat.add_zero, List.map_map]
    rw [advance_setPos counts h1 o, ih (o + 1)]
    congr 1
    apply List.map_congr_left
    intro i _
    exact congrArg (setPosDigits counts) (by omega)

theorem workerDigits_eq (counts : List Nat) (T C total fuel t : Nat)
    (h1 : ∀ c ∈ counts, 1 ≤ c) (htotal : total = counts.prod) :
    workerDigitsVisited counts T C total fuel t =
      (workerFlatIndices T C total fuel t).map (setPosDigits counts) := by
  unfold workerDigitsVisited workerFlatIndices workerVirtualIndices
  rw [List.map_map, List.map_flatten, List.map_map]
  congr 1
  apply List.map_congr_left
  intro o _
  rw [chunkDigits_setPos counts h1 C o]
  simp only [Function.comp, List.map_map]
  apply List.map_congr_left
  intro i _
  subst htotal
  exact setPosDigits_mod counts (o + i)

/-- Virtual scan ranges of distinct workers never overlap: chunk starts are
distinct multiples of `C`, distinct modulo `T` between workers. -/
theorem workerVirtual_disjoint (T C total fuel t1 t2 : Nat) (hC : 1 ≤ C)
    (ht1 : t1 < T) (ht2 : t2 < T) (hne : t1 ≠ t2) (v : Nat)
    (hv1 : v ∈ workerVirtualIndices T C total fuel t1)
    (hv2 : v ∈ workerVirtualIndices T C total fuel t2) : False := by
  obtain ⟨o1, ho1, i1, hi1, rfl⟩ := (workerVirtual_mem T C total fuel t1 _).mp hv1
  obtain ⟨o2, ho2, i2, hi2, heq⟩ := (workerVirtual_mem T C total fuel t2 _).mp hv2
  obtain ⟨j1, hj1, _⟩ := workerOffsets_mem_fwd T C total fuel (t1 * C) o1 ho1
  obtain ⟨j2, hj2, _⟩ := workerOffsets_mem_fwd T C total fuel (t2 * C) o2 ho2
  have e1 : o1 = C * (t1 + j1 * T) := by rw [hj1]; ring
  have e2 : o2 = C * (t2 + j2 * T) := by rw [hj2]; ring
  rw [e1, e2] at heq
  have ha : t1 + j1 * T = t2 + j2 * T := by
    have h1 : (C * (t1 + j1 * T) + i1) / C = t1 + j1 * T := by
      rw [Nat.mul_add_div (by omega), Nat.div_eq_of_lt hi1, Nat.add_zero]
    have h2 : (C * (t2 + j2 * T) + i2) / C = t2 + j2 * T := by
      rw [Nat.mul_add_div (by omega), Nat.div_eq_of_lt hi2, Nat.add_zero]
    rw [← h1, ← h2, heq]
  have m1 : (t1 + j1 * T) % T = t1 := by
    rw [Nat.add_mul_mod_self_right, Nat.mod_eq_of_lt ht1]
  have m2 : (t2 + j2 * T) % T = t2 := by
    rw [Nat.add_mul_mod_self_right, Nat.mod_eq_of_lt ht2]
  exact hne (by rw [← m1, ← m2, ha])

/-- C3 (amended): when the candidate-space size is a multiple of the chunk
stride `T * C`, worker `t` scans exactly the flat-index ranges
`[tC + jTC, tC + jTC + C)` intersected with `[0, total)`, workers are pairwise
disjoint, no flat index is scanned twice by any worker, and the digit tuples
the worker visits are exactly the odometer decodings of those flat indices.
(Without the divisibility condition the last chunks overshoot `total` and
wrap modulo `total`, re-scanning indices: `c3_counterexample`.) -/
theorem c3_worker_partitioning (T C total fuel t t2 : Nat) (counts : List Nat)
    (hT : 1 ≤ T) (hC : 1 ≤ C) (ht : t < T) (ht2 : t2 < T) (hne : t ≠ t2)
    (hfuel1 : 1 ≤ fuel) (hfuel2 : total ≤ fuel * (T * C))
    (hdvd : T * C ∣ total) (htot : 1 ≤ total)
    (hcounts : ∀ c ∈ counts, 1 ≤ c) (htotal : total = counts.prod) :
    (∀ v, v ∈ workerFlatIndices T C total fuel t ↔
      ((∃ j i, i < C ∧ v = t * C + j * (T * C) + i) ∧ v < total)) ∧
    (∀ v, v ∈ workerFlatIndices T C total fuel t →
      v ∉ workerFlatIndices T C total fuel t2) ∧
    (workerFlatIndices T C total fuel t).Nodup ∧
    workerDigitsVisited counts T C total fuel t =
      (workerFlatIndices T C total fuel t).map (setPosDigits counts) := by
  have hfv := workerFlat_eq_virtual T C total fuel t hT ht hdvd htot
  have hfv2 := workerFlat_eq_virtual T C total fuel t2 hT ht2 hdvd htot
  refine ⟨?_, ?_, ?_, workerDigits_eq counts T C total fuel t hcounts htotal⟩
  · intro v
    rw [hfv]
    constructor
    · intro hv
      have hvlt := workerVirtual_lt_total T C total fuel t hT ht hdvd htot v hv
      obtain ⟨o, ho, i, hi, rfl⟩ := (workerVirtual_mem T C total fuel t _).mp hv
      obtain ⟨j, hj, _⟩ := workerOffsets_mem_fwd T C total fuel (t * C) o ho
      exact ⟨⟨j, i, hi, by omega⟩, hvlt⟩
    · rintro ⟨⟨j, i, hi, rfl⟩, hvlt⟩
      refine (workerVirtual_mem T C total fuel t _).mpr
        ⟨t * C + j * (T * C), ?_, i, hi, rfl⟩
      exact workerOffsets_mem_bwd T C total fuel (t * C) (by omega) hfuel1 j _ rfl
        (Or.inr (by omega))
  · intro v hv1 hv2
    rw [hfv] at hv1
    rw [hfv2] at hv2
    exact workerVirtual_disjoint T C total fuel t t2 hC ht ht2 hne v hv1 hv2
  · rw [hfv]
    exact workerVirtual_nodup T C total fuel t hT

theorem c3_worker_partitioning_witness :
    (workerFlatIndices 2 3 6 7 0).Nodup ∧
    workerDigitsVisited [2, 3] 2 3 6 7 0 =
      (workerFlatIndices 2 3 6 7 0).map (setPosDigits [2, 3]) :=
  ⟨(c3_worker_partitioning 2 3 6 7 0 1 [2, 3] (by decide) (by decide) (by decide) (by decide)
      (by decide) (by decide) (by decide) (by decide) (by decide) (by decide) (by decide)).2.2.1,
    (c3_worker_partitioning 2 3 6 7 0 1 [2, 3] (by decide) (by decide) (by decide) (by decide)
      (by decide) (by decide) (by decide) (by decide) (by decide) (by decide) (by decide)).2.2.2⟩

/-- C3 counterexample: with one worker, chunk size `CHUNK_SIZE` and a
2-candidate space, the worker re-scans flat index 0 (at scan steps 0 and 2 of
its first chunk): the claim that no flat index is scanned twice fails. -/
theorem c3_counterexample :
    ¬(workerFlatIndices 1 CHUNK_SIZE 2 3 0).Nodup ∧
    (workerFlatIndices 1 CHUNK_SIZE 2 3 0)[0]? = some 0 ∧
    (workerFlatIndices 1 CHUNK_SIZE 2 3 0)[2]? = some 0 := by
  have hlist : workerFlatIndices 1 CHUNK_SIZE 2 3 0 =
      (List.range CHUNK_SIZE).map (fun i => (0 + i) % 2) := by
    unfold workerFlatIndices workerVirtualIndices
    rw [show workerOffsets 1 CHUNK_SIZE 2 3 (0 * CHUNK_SIZE) = [0] from rfl]
    rw [List.map_cons, List.map_nil, List.flatten_cons, List.flatten_nil, List.append_nil,
      List.map_map]
    rfl
  have h0 : (workerFlatIndices 1 CHUNK_SIZE 2 3 0)[0]? = some 0 := by
    rw [hlist, List.getElem?_map, List.getElem?_range (show 0 < CHUNK_SIZE by decide)]
    rfl
  have h2 : (workerFlatIndices 1 CHUNK_SIZE 2 3 0)[2]? = some 0 := by
    rw [hlist, List.getElem?_map, List.getElem?_range (show 2 < CHUNK_SIZE by decide)]
    rfl
  refine ⟨?_, h0, h2⟩
  intro hnd
  have hlen : 0 < (workerFlatIndices 1 CHUNK_SIZE 2 3 0).length := by
    rw [hlist]
    simp only [List.length_map, List.length_range]
    decide
  have h02 := List.getElem?_inj hlen hnd (h0.trans h2.symm)
  omega
